import Mathlib

/-!
Shallow embedding of the compacted on-disk k-mer hash format of
src/jellyfish/compacted_hash.hpp: the record writer, the buffered
sequential reader and the memory-mapped point query, together with
theorems settling the frozen claims about them.

Machine integers (uint64_t, size_t) are modelled as Nat with explicit
reduction modulo 2 ^ 64 at every operation where the C++ computation can
wrap.  Byte buffers are lists of Nat (each entry a byte value).  The
machine is little-endian (the spec fixes little-endian layout), so a
memcpy of the low n bytes of a uint64 is the n-byte little-endian
encoding of its value modulo 2 ^ (8 n).
-/

namespace Jellyfish

/-- Little-endian encoding of value v into n bytes: what
memcpy(ptr, &v, n) stores on a little-endian machine.  Bytes beyond the
value width are the high zero bytes of the source integer. -/
def leBytes : Nat → Nat → List Nat
  | 0, _ => []
  | n + 1, v => (v % 256) :: leBytes n (v / 256)

/-- Little-endian decoding of a byte list: what memcpy(&v, ptr, n) into a
zeroed uint64 yields on a little-endian machine. -/
def leDecode : List Nat → Nat
  | [] => 0
  | b :: bs => b + 256 * leDecode bs

theorem leBytes_length (n v : Nat) : (leBytes n v).length = n := by
  induction n generalizing v with
  | zero => rfl
  | succ n ih => simp [leBytes, ih]

theorem leDecode_leBytes (n v : Nat) (h : v < 256 ^ n) :
    leDecode (leBytes n v) = v := by
  induction n generalizing v with
  | zero => simp [leBytes, leDecode]; omega
  | succ n ih =>
      have hlt : v / 256 < 256 ^ n := by
        rw [Nat.div_lt_iff_lt_mul (by norm_num)]
        calc v < 256 ^ (n + 1) := h
        _ = 256 ^ n * 256 := by ring
      simp [leBytes, leDecode, ih _ hlt]
      omega

theorem leBytes_mod (n v : Nat) : leBytes n (v % 256 ^ n) = leBytes n v := by
  induction n generalizing v with
  | zero => rfl
  | succ n ih =>
      have h1 : v % 256 ^ (n + 1) % 256 = v % 256 :=
        Nat.mod_mod_of_dvd v (dvd_pow_self 256 (Nat.succ_ne_zero n))
      have h2 : v % 256 ^ (n + 1) / 256 = v / 256 % 256 ^ n := by
        rw [pow_succ, mul_comm, Nat.mod_mul_right_div_self]
      simp [leBytes, h1, h2, ih]

theorem leBytes_zero (n : Nat) : leBytes n 0 = List.replicate n 0 := by
  induction n with
  | zero => rfl
  | succ n ih => simp [leBytes, ih, List.replicate_succ]

/-- The 8 magic bytes "JFLISTDN" (static const char *file_type). -/
def magicBytes : List Nat := [74, 70, 76, 73, 83, 84, 68, 78]

/-- Modelled from the spec: bits_to_bytes (jellyfish/misc.hpp, not under
src/) is the byte length ceil(bits / 8) of a bits-wide field, matching
the in-src computation (header.key_len / 8) + (header.key_len % 8 != 0)
performed by reader::initialize. -/
def bits_to_bytes (bits : Nat) : Nat :=
  bits / 8 + (if bits % 8 ≠ 0 then 1 else 0)

/-! ## The writer (compacted_hash::writer) -/

/-- State of compacted_hash::writer.  klen and vlen are the bit widths
given to initialize, key_len and val_len the derived byte widths, and
buffer the bytes written so far (so buffer.length is the cursor offset
ptr - buffer, and the capacity end - buffer is
nb_records * (key_len + val_len)).  The four statistics counters are
uint64_t and therefore reduced modulo 2 ^ 64. -/
structure WriterState where
  unique : Nat
  distinct : Nat
  total : Nat
  max_count : Nat
  nb_records : Nat
  klen : Nat
  vlen : Nat
  key_len : Nat
  val_len : Nat
  buffer : List Nat
  deriving Repr, DecidableEq

namespace writer

/-- writer::initialize (the name itself is a Lean keyword). -/
def init (nb klen vlen : Nat) : WriterState :=
  { unique := 0, distinct := 0, total := 0, max_count := 0,
    nb_records := nb, klen := klen, vlen := vlen,
    key_len := bits_to_bytes klen, val_len := bits_to_bytes vlen,
    buffer := [] }

/-- writer::append.  Returns false and leaves the state untouched when
the cursor has reached the end of the buffer; otherwise memcpy writes the
low key_len bytes of key and the low val_len bytes of val and the
uint64_t statistics are updated from the full arguments. -/
def append (w : WriterState) (key val : Nat) : Bool × WriterState :=
  if w.buffer.length ≥ w.nb_records * (w.key_len + w.val_len) then
    (false, w)
  else
    (true,
     { w with
       buffer := w.buffer ++ leBytes w.key_len key ++ leBytes w.val_len val,
       unique := (w.unique + if val = 1 then 1 else 0) % 2 ^ 64,
       distinct := (w.distinct + 1) % 2 ^ 64,
       total := (w.total + val) % 2 ^ 64,
       max_count := if val > w.max_count then val else w.max_count })

/-- writer::dump: emit the buffered bytes and reset the cursor. -/
def dump (w : WriterState) : List Nat × WriterState :=
  (w.buffer, { w with buffer := [] })

/-- writer::write_header: a zeroed header with the magic, the key bit
length, the value byte length and the two array parameters filled in; the
statistics fields stay zero.  size and max_reprobe stand for
ary->get_size() and ary->get_max_reprobe_offset(), which the spec calls S
and reprobe_limit (square_binary_matrix.hpp and the array class are not
under src/). -/
def write_header (w : WriterState) (size max_reprobe : Nat) : List Nat :=
  magicBytes ++ leBytes 8 w.klen ++ leBytes 8 w.val_len ++
  leBytes 8 size ++ leBytes 8 max_reprobe ++
  leBytes 8 0 ++ leBytes 8 0 ++ leBytes 8 0 ++ leBytes 8 0

/-- writer::update_stats_with: the header rewritten at offset 0 with the
given statistics. -/
def update_stats_with (w : WriterState) (size max_reprobe u d t m : Nat) :
    List Nat :=
  magicBytes ++ leBytes 8 w.klen ++ leBytes 8 w.val_len ++
  leBytes 8 size ++ leBytes 8 max_reprobe ++
  leBytes 8 u ++ leBytes 8 d ++ leBytes 8 t ++ leBytes 8 m

/-- writer::update_stats: update_stats_with on the running counters. -/
def update_stats (w : WriterState) (size max_reprobe : Nat) : List Nat :=
  update_stats_with w size max_reprobe w.unique w.distinct w.total w.max_count

/-- Iterated append; the Bool is the conjunction of all returned flags. -/
def appendAll (w : WriterState) : List (Nat × Nat) → Bool × WriterState
  | [] => (true, w)
  | p :: ps =>
      let r := append w p.1 p.2
      let r2 := appendAll r.2 ps
      (r.1 && r2.1, r2.2)

end writer

/-! ## Record streams -/

/-- One on-disk record: key bytes then value bytes, little-endian. -/
def encodeRecord (kl vl : Nat) (p : Nat × Nat) : List Nat :=
  leBytes kl p.1 ++ leBytes vl p.2

/-- Back-to-back records. -/
def encodeAll (kl vl : Nat) (ps : List (Nat × Nat)) : List Nat :=
  (ps.map (encodeRecord kl vl)).flatten

theorem encodeRecord_length (kl vl : Nat) (p : Nat × Nat) :
    (encodeRecord kl vl p).length = kl + vl := by
  simp [encodeRecord, leBytes_length]

theorem encodeAll_length (kl vl : Nat) (ps : List (Nat × Nat)) :
    (encodeAll kl vl ps).length = ps.length * (kl + vl) := by
  induction ps with
  | nil => simp [encodeAll]
  | cons p ps ih =>
      simp [encodeAll, List.flatten] at ih ⊢
      simp [encodeRecord_length, ih]
      ring

/-- Statistics summary of a list of appended pairs: how many values
equal 1. -/
def countOnes (ps : List (Nat × Nat)) : Nat :=
  (ps.filter (fun p => p.2 = 1)).length

/-- Sum of the appended values. -/
def sumVals (ps : List (Nat × Nat)) : Nat :=
  (ps.map Prod.snd).sum

/-- Maximum of the appended values, 0 when none. -/
def maxVals (ps : List (Nat × Nat)) : Nat :=
  (ps.map Prod.snd).foldl max 0

/-! ## The sequential reader (compacted_hash::reader) -/

/-- The 72-byte header as parsed from a file (struct header has the
8-byte type then eight uint64_t fields, no padding). -/
structure ParsedHeader where
  key_len : Nat
  val_len : Nat
  size : Nat
  max_reprobe : Nat
  unique : Nat
  distinct : Nat
  total : Nat
  max_count : Nat
  deriving Repr, DecidableEq

/-- Decode the eight little-endian uint64 fields following the magic. -/
def parseHeader (file : List Nat) : ParsedHeader :=
  { key_len := leDecode ((file.drop 8).take 8),
    val_len := leDecode ((file.drop 16).take 8),
    size := leDecode ((file.drop 24).take 8),
    max_reprobe := leDecode ((file.drop 32).take 8),
    unique := leDecode ((file.drop 40).take 8),
    distinct := leDecode ((file.drop 48).take 8),
    total := leDecode ((file.drop 56).take 8),
    max_count := leDecode ((file.drop 64).take 8) }

/-- What reader::initialize derives from the header before loading the
matrices. -/
structure ReaderInit where
  header : ParsedHeader
  key_len : Nat
  record_len : Nat
  size_mask : Nat
  deriving Repr, DecidableEq

namespace reader

/-- reader::initialize up to the two matrix loads (SquareBinaryMatrix is
not under src/): read 72 header bytes, failing when the stream is
shorter; compare the first 8 bytes against the magic; then derive
key_len, record_len and size_mask = header.size - 1.  The source
contains no further validation of the header (in particular none on
size; the TODO comment on that line is not code). -/
def init (file : List Nat) : Except String ReaderInit :=
  if file.length < 72 then .error "Error reading header"
  else if file.take 8 ≠ magicBytes then .error "Bad file type"
  else
    let h := parseHeader file
    .ok { header := h,
          key_len := h.key_len / 8 + (if h.key_len % 8 ≠ 0 then 1 else 0),
          record_len :=
            (h.key_len / 8 + (if h.key_len % 8 ≠ 0 then 1 else 0)) + h.val_len,
          size_mask := h.size - 1 }

end reader

/-- State of the reader record loop: the not-yet-read byte stream past
the header and matrices, the current buffer contents (buf.length is
gcount of the last read), the cursor offset ptr - buffer, whether
end_buffer is non-NULL, and the stream fail bit. -/
structure ReaderSt where
  stream : List Nat
  buf : List Nat
  pos : Nat
  filled : Bool
  fail : Bool
  deriving Repr, DecidableEq

/-- Reader state right after initialize: empty buffer, NULL end_buffer,
clean stream positioned at the first record. -/
def ReaderSt.start (stream : List Nat) : ReaderSt :=
  ⟨stream, [], 0, false, false⟩

/-- One unrolling of the while(true) loop of reader::next with kl + vl =
record_len and bl = buffer_len.  The parse guard ptr <= end_buffer is
filled = true (end_buffer non-NULL, i.e. the last gcount was at least
record_len) and pos + record_len <= gcount.  A refill reads
min bl stream.length bytes; the fail bit is set exactly when fewer than
bl bytes arrive.  The source loop repeats only after a refill, and every
refill either consumes stream bytes or raises the fail bit, so the fuel
supplied by reader.next below covers every terminating execution; the
loop genuinely never terminates when bl = 0, where the fuel runs out and
we return none. -/
def nextLoop (kl vl bl : Nat) : Nat → ReaderSt → Option (Nat × Nat) × ReaderSt
  | 0, s => (none, s)
  | fuel + 1, s =>
      if s.filled ∧ s.pos + (kl + vl) ≤ s.buf.length then
        (some (leDecode ((s.buf.drop s.pos).take kl),
               leDecode (((s.buf.drop s.pos).drop kl).take vl)),
         { s with pos := s.pos + (kl + vl) })
      else if s.fail then (none, s)
      else
        let g := min bl s.stream.length
        nextLoop kl vl bl fuel
          { stream := s.stream.drop g, buf := s.stream.take g, pos := 0,
            filled := decide (kl + vl ≤ g), fail := decide (g < bl) }

/-- reader::next.  Returns the parsed (key, val) record or none when the
loop returns false; the second component is the state afterwards. -/
def reader.next (kl vl bl : Nat) (s : ReaderSt) :
    Option (Nat × Nat) × ReaderSt :=
  nextLoop kl vl bl (2 * s.stream.length + 2) s

/-- Repeated reader::next, collecting records until next returns false
(or the fuel runs out; the theorems supply enough fuel). -/
def runReader (kl vl bl : Nat) : Nat → ReaderSt → List (Nat × Nat)
  | 0, _ => []
  | fuel + 1, s =>
      match reader.next kl vl bl s with
      | (none, _) => []
      | (some p, s2) => p :: runReader kl vl bl fuel s2

/-! ## The point query (compacted_hash::query) -/

/-- A memory-mapped compacted file as the query sees it: the parsed
record area, the hash function realised by hash_matrix.times
(square_binary_matrix.hpp is not under src/, so the GF(2) product is an
abstract function), and the header size field S. -/
structure QueryFile where
  recs : List (Nat × Nat)
  hash : Nat → Nat
  size : Nat

namespace query

/-- query::get_key at index id (records out of range read as zero; the
theorems only use in-range indices). -/
def keyAt (q : QueryFile) (i : Nat) : Nat := (q.recs.getD i (0, 0)).1

/-- query::get_val at index id. -/
def valAt (q : QueryFile) (i : Nat) : Nat := (q.recs.getD i (0, 0)).2

/-- query::get_pos: hash_matrix.times(k) & size_mask. -/
def getPos (q : QueryFile) (k : Nat) : Nat := q.hash k &&& (q.size - 1)

/-- last_id: number of records in the mapped file. -/
def lastId (q : QueryFile) : Nat := q.recs.length

/-- first_key, read by the constructor from record 0. -/
def firstKey (q : QueryFile) : Nat := keyAt q 0

/-- last_key, read by the constructor from record last_id - 1. -/
def lastKey (q : QueryFile) : Nat := keyAt q (lastId q - 1)

/-- first_pos. -/
def firstPos (q : QueryFile) : Nat := getPos q (firstKey q)

/-- last_pos. -/
def lastPos (q : QueryFile) : Nat := getPos q (lastKey q)

/-- The binary-search loop of query::get_key_val.  The uint64 guard
first < last - 1 agrees with the Nat reading on the reachable states:
the query constructor reads record last_id - 1, so a mapped file has at
least one record and the initial last = last_id is at least 1, and last
only ever decreases to a middle index strictly above first, never to
0. -/
def bsearch (q : QueryFile) (pos key : Nat) (first last : Nat) : Nat :=
  if _h : first < last - 1 then
    let middle := (first + last) / 2
    let midKey := keyAt q middle
    if key = midKey then valAt q middle
    else
      let midPos := getPos q midKey
      if midPos > pos ∨ (midPos = pos ∧ midKey > key) then
        bsearch q pos key first middle
      else
        bsearch q pos key middle last
  else 0
termination_by last - first
decreasing_by
  · omega
  · omega

/-- The body of query::get_key_val after canonicalization: fast-path
equality against the first and last record, the position range check,
then binary search over [0, last_id). -/
def lookupKey (q : QueryFile) (key : Nat) : Nat :=
  if key = firstKey q then valAt q 0
  else if key = lastKey q then valAt q (lastId q - 1)
  else
    let pos := getPos q key
    if pos < firstPos q ∨ pos > lastPos q then 0
    else bsearch q pos key 0 (lastId q)

/-- query::get_key_val.  In canonical mode the key is first replaced by
its reverse complement unless that is larger; rc stands for
fasta_parser::reverse_complement, which is not under src/ and stays an
abstract function. -/
def get_key_val (q : QueryFile) (canonical : Bool) (rc : Nat → Nat)
    (key0 : Nat) : Nat :=
  lookupKey q
    (if canonical then
       (if rc key0 > key0 then key0 else rc key0)
     else key0)

end query

/-! ## Writer lemmas -/

theorem encodeAll_nil (kl vl : Nat) : encodeAll kl vl [] = [] := rfl

theorem encodeAll_cons (kl vl : Nat) (p : Nat × Nat) (ps : List (Nat × Nat)) :
    encodeAll kl vl (p :: ps) = encodeRecord kl vl p ++ encodeAll kl vl ps := by
  simp [encodeAll]

theorem countOnes_cons (p : Nat × Nat) (ps : List (Nat × Nat)) :
    countOnes (p :: ps) = (if p.2 = 1 then 1 else 0) + countOnes ps := by
  simp only [countOnes, List.filter]
  split
  · simp_all
    omega
  · simp_all

theorem sumVals_cons (p : Nat × Nat) (ps : List (Nat × Nat)) :
    sumVals (p :: ps) = p.2 + sumVals ps := by
  simp [sumVals]

/-- The append guard mutates none of the configuration fields. -/
theorem writer.append_params (w : WriterState) (k v : Nat) :
    (writer.append w k v).2.nb_records = w.nb_records ∧
    (writer.append w k v).2.klen = w.klen ∧
    (writer.append w k v).2.vlen = w.vlen ∧
    (writer.append w k v).2.key_len = w.key_len ∧
    (writer.append w k v).2.val_len = w.val_len := by
  unfold writer.append
  split <;> simp

theorem writer.appendAll_params (ps : List (Nat × Nat)) :
    ∀ w : WriterState,
    (writer.appendAll w ps).2.nb_records = w.nb_records ∧
    (writer.appendAll w ps).2.klen = w.klen ∧
    (writer.appendAll w ps).2.vlen = w.vlen ∧
    (writer.appendAll w ps).2.key_len = w.key_len ∧
    (writer.appendAll w ps).2.val_len = w.val_len := by
  induction ps with
  | nil => intro w; simp [writer.appendAll]
  | cons p ps ih =>
      intro w
      have h1 := writer.append_params w p.1 p.2
      have h2 := ih (writer.append w p.1 p.2).2
      simp only [writer.appendAll]
      omega

/-- When every append of the run succeeds, the buffer receives exactly the
encoded records and the uint64 statistics counters accumulate the summary
of the inputs (each reduced modulo 2 ^ 64). -/
theorem writer.appendAll_fields (ps : List (Nat × Nat)) :
    ∀ w : WriterState, w.unique < 2 ^ 64 → w.distinct < 2 ^ 64 →
    w.total < 2 ^ 64 →
    (writer.appendAll w ps).1 = true →
    (writer.appendAll w ps).2.buffer =
        w.buffer ++ encodeAll w.key_len w.val_len ps ∧
    (writer.appendAll w ps).2.unique = (w.unique + countOnes ps) % 2 ^ 64 ∧
    (writer.appendAll w ps).2.distinct = (w.distinct + ps.length) % 2 ^ 64 ∧
    (writer.appendAll w ps).2.total = (w.total + sumVals ps) % 2 ^ 64 ∧
    (writer.appendAll w ps).2.max_count =
        (ps.map Prod.snd).foldl max w.max_count := by
  induction ps with
  | nil =>
      intro w hu hd ht _
      refine ⟨by simp [writer.appendAll, encodeAll_nil], ?_, ?_, ?_, ?_⟩
      · simp [writer.appendAll, countOnes]
        omega
      · simp [writer.appendAll]
        omega
      · simp [writer.appendAll, sumVals]
        omega
      · simp [writer.appendAll]
  | cons p ps ih =>
      intro w hu hd ht hok
      by_cases hc : w.buffer.length ≥ w.nb_records * (w.key_len + w.val_len)
      · exfalso
        simp [writer.appendAll, writer.append, hc] at hok
      · set w1 : WriterState :=
          { w with
            buffer := w.buffer ++ leBytes w.key_len p.1 ++ leBytes w.val_len p.2,
            unique := (w.unique + if p.2 = 1 then 1 else 0) % 2 ^ 64,
            distinct := (w.distinct + 1) % 2 ^ 64,
            total := (w.total + p.2) % 2 ^ 64,
            max_count := if p.2 > w.max_count then p.2 else w.max_count }
          with hw1
        have happ : writer.append w p.1 p.2 = (true, w1) := by
          rw [writer.append, if_neg hc, hw1]
        have hok2 : (writer.appendAll w1 ps).1 = true := by
          simp only [writer.appendAll, happ, Bool.and_eq_true] at hok
          exact hok.2
        have hall : (writer.appendAll w (p :: ps)).2 = (writer.appendAll w1 ps).2 := by
          simp only [writer.appendAll, happ]
        have h1 := ih w1 (Nat.mod_lt _ (by norm_num))
          (Nat.mod_lt _ (by norm_num)) (Nat.mod_lt _ (by norm_num)) hok2
        obtain ⟨hb, hq, hdd, htt, hm⟩ := h1
        have hkl : w1.key_len = w.key_len := rfl
        have hvl : w1.val_len = w.val_len := rfl
        rw [hall]
        refine ⟨?_, ?_, ?_, ?_, ?_⟩
        · rw [hb, hkl, hvl]
          simp [hw1, encodeAll_cons, encodeRecord]
        · rw [hq, hw1, countOnes_cons]
          simp only [Nat.mod_add_mod]
          omega
        · rw [hdd, hw1]
          simp only [Nat.mod_add_mod, List.length_cons]
          omega
        · rw [htt, hw1, sumVals_cons]
          simp only [Nat.mod_add_mod]
          omega
        · rw [hm, hw1]
          simp only [List.map_cons, List.foldl_cons]
          have hmx : max w.max_count p.2 =
              if p.2 > w.max_count then p.2 else w.max_count := by
            rw [Nat.max_def]
            split
            · split <;> omega
            · split <;> omega
          rw [hmx]

/-- A fully successful run never stores more than nb_records records: the
cursor advances one record length per success and the guard compares it
against nb_records record lengths. -/
theorem writer.appendAll_count (ps : List (Nat × Nat)) :
    ∀ (w : WriterState) (j : Nat),
    (writer.appendAll w ps).1 = true →
    w.buffer.length = j * (w.key_len + w.val_len) →
    ps ≠ [] → j + ps.length ≤ w.nb_records := by
  induction ps with
  | nil => intro w j _ _ hne; exact absurd rfl hne
  | cons p ps ih =>
      intro w j hok hlen _
      by_cases hc : w.buffer.length ≥ w.nb_records * (w.key_len + w.val_len)
      · exfalso
        simp [writer.appendAll, writer.append, hc] at hok
      · set w1 : WriterState :=
          { w with
            buffer := w.buffer ++ leBytes w.key_len p.1 ++ leBytes w.val_len p.2,
            unique := (w.unique + if p.2 = 1 then 1 else 0) % 2 ^ 64,
            distinct := (w.distinct + 1) % 2 ^ 64,
            total := (w.total + p.2) % 2 ^ 64,
            max_count := if p.2 > w.max_count then p.2 else w.max_count }
          with hw1
        have happ : writer.append w p.1 p.2 = (true, w1) := by
          rw [writer.append, if_neg hc, hw1]
        have hok2 : (writer.appendAll w1 ps).1 = true := by
          simp only [writer.appendAll, happ, Bool.and_eq_true] at hok
          exact hok.2
        push_neg at hc
        rw [hlen] at hc
        have hj : j < w.nb_records := Nat.lt_of_mul_lt_mul_right hc
        rcases List.eq_nil_or_concat ps with hps | ⟨l, a, hps⟩
        · subst hps
          simpa using hj
        · have hne2 : ps ≠ [] := by subst hps; simp
          have hlen1 : w1.buffer.length = (j + 1) * (w1.key_len + w1.val_len) := by
            show (w.buffer ++ leBytes w.key_len p.1 ++
              leBytes w.val_len p.2).length = (j + 1) * (w.key_len + w.val_len)
            simp [leBytes_length, hlen]
            ring
          have hrec := ih w1 (j + 1) hok2 hlen1 hne2
          have hnb : w1.nb_records = w.nb_records := rfl
          rw [hnb] at hrec
          simp only [List.length_cons]
          omega

/-- A writer whose cursor has reached the end of its buffer rejects every
further append and never changes state again. -/
theorem writer.appendAll_full (w : WriterState)
    (hfull : w.buffer.length ≥ w.nb_records * (w.key_len + w.val_len)) :
    ∀ qs : List (Nat × Nat), (writer.appendAll w qs).2 = w ∧
      (qs ≠ [] → (writer.appendAll w qs).1 = false) := by
  intro qs
  induction qs with
  | nil => exact ⟨rfl, fun h => absurd rfl h⟩
  | cons q qs ih =>
      have happ : writer.append w q.1 q.2 = (false, w) := by
        rw [writer.append, if_pos hfull]
      constructor
      · show (writer.appendAll (writer.append w q.1 q.2).2 qs).2 = w
        rw [happ]
        exact ih.1
      · intro _
        show ((writer.append w q.1 q.2).1 &&
          (writer.appendAll (writer.append w q.1 q.2).2 qs).1) = false
        rw [happ]
        simp

theorem leBytes_mod_pow2 (n x : Nat) : leBytes n (x % 2 ^ (8 * n)) = leBytes n x := by
  have h : (2 : Nat) ^ (8 * n) = 256 ^ n := by
    rw [pow_mul]
    norm_num
  rw [h]
  exact leBytes_mod n x

/-! ## Claims about the writer -/

/-- C7 counterexample: appending two values of 2 ^ 63 makes the uint64
total counter wrap to 0, which is not the arithmetic sum 2 ^ 64 of the
appended values. -/
theorem writer_stats_total_wrap_cex :
    (writer.appendAll (writer.init 2 8 64) [(0, 2 ^ 63), (0, 2 ^ 63)]).1 = true ∧
    (writer.appendAll (writer.init 2 8 64) [(0, 2 ^ 63), (0, 2 ^ 63)]).2.total = 0 ∧
    sumVals [(0, 2 ^ 63), (0, 2 ^ 63)] = 2 ^ 64 ∧ (0 : Nat) ≠ 2 ^ 64 := by
  refine ⟨by decide, by decide, by decide, by decide⟩

/-- Statistics of a fully successful run of appends from a fresh writer
(shared between the writer claims). -/
theorem writer.init_stats (nb klen vlen : Nat) (ps : List (Nat × Nat))
    (hnb : nb < 2 ^ 64)
    (hok : (writer.appendAll (writer.init nb klen vlen) ps).1 = true) :
    (writer.appendAll (writer.init nb klen vlen) ps).2.unique = countOnes ps ∧
    (writer.appendAll (writer.init nb klen vlen) ps).2.distinct = ps.length ∧
    (writer.appendAll (writer.init nb klen vlen) ps).2.total = sumVals ps % 2 ^ 64 ∧
    (writer.appendAll (writer.init nb klen vlen) ps).2.max_count = maxVals ps := by
  have hf := writer.appendAll_fields ps (writer.init nb klen vlen)
    (by simp [writer.init]) (by simp [writer.init]) (by simp [writer.init]) hok
  obtain ⟨_, hq, hd, ht, hm⟩ := hf
  have hcount : ps.length ≤ nb := by
    rcases List.eq_nil_or_concat ps with h0 | ⟨l, a, h0⟩
    · subst h0; simp
    · have hne : ps ≠ [] := by subst h0; simp
      have := writer.appendAll_count ps (writer.init nb klen vlen) 0 hok
        (by simp [writer.init]) hne
      simpa [writer.init] using this
  have hones : countOnes ps ≤ ps.length := List.length_filter_le _ _
  refine ⟨?_, ?_, ?_, ?_⟩
  · rw [hq]
    show (0 + countOnes ps) % 2 ^ 64 = countOnes ps
    rw [Nat.zero_add]
    exact Nat.mod_eq_of_lt (by omega)
  · rw [hd]
    show (0 + ps.length) % 2 ^ 64 = ps.length
    rw [Nat.zero_add]
    exact Nat.mod_eq_of_lt (by omega)
  · rw [ht]
    show (0 + sumVals ps) % 2 ^ 64 = sumVals ps % 2 ^ 64
    rw [Nat.zero_add]
  · rw [hm]
    rfl

/-- C7 (amended): after a fully successful run of appends from a fresh
writer with nb_records < 2 ^ 64 (nb_records is a size_t), unique is the
number of appended values equal to 1, distinct the number of appended
pairs, max_count the maximum appended value (0 when none), and total the
sum of the appended values reduced modulo 2 ^ 64 (the counter is a
uint64_t and wraps). -/
theorem writer_stats_correct (nb klen vlen : Nat) (ps : List (Nat × Nat))
    (hnb : nb < 2 ^ 64)
    (hok : (writer.appendAll (writer.init nb klen vlen) ps).1 = true) :
    (writer.appendAll (writer.init nb klen vlen) ps).2.unique = countOnes ps ∧
    (writer.appendAll (writer.init nb klen vlen) ps).2.distinct = ps.length ∧
    (writer.appendAll (writer.init nb klen vlen) ps).2.total = sumVals ps % 2 ^ 64 ∧
    (writer.appendAll (writer.init nb klen vlen) ps).2.max_count = maxVals ps :=
  writer.init_stats nb klen vlen ps hnb hok

/-- C7 witness: a concrete successful run with the statistics evaluated. -/
theorem writer_stats_correct_witness :
    (writer.appendAll (writer.init 3 8 8) [(4, 1), (5, 7), (6, 2)]).2.unique = 1 ∧
    (writer.appendAll (writer.init 3 8 8) [(4, 1), (5, 7), (6, 2)]).2.distinct = 3 ∧
    (writer.appendAll (writer.init 3 8 8) [(4, 1), (5, 7), (6, 2)]).2.total = 10 % 2 ^ 64 ∧
    (writer.appendAll (writer.init 3 8 8) [(4, 1), (5, 7), (6, 2)]).2.max_count = 7 :=
  writer_stats_correct 3 8 8 [(4, 1), (5, 7), (6, 2)] (by norm_num) (by decide)

/-- C9: once a fresh writer with capacity nb_records has accepted
nb_records appends, every further append returns false and the state
(buffer, cursor and all four statistics) is unchanged: the rejected pairs
are recorded nowhere. -/
theorem append_after_full_noop (nb klen vlen : Nat) (ps qs : List (Nat × Nat))
    (hlen : ps.length = nb)
    (hok : (writer.appendAll (writer.init nb klen vlen) ps).1 = true)
    (hqs : qs ≠ []) :
    (writer.appendAll ((writer.appendAll (writer.init nb klen vlen) ps).2) qs).1 = false ∧
    (writer.appendAll ((writer.appendAll (writer.init nb klen vlen) ps).2) qs).2 =
      (writer.appendAll (writer.init nb klen vlen) ps).2 := by
  set w0 := writer.init nb klen vlen with hw0
  set w1 := (writer.appendAll w0 ps).2 with hw1
  have hfields := writer.appendAll_fields ps w0
    (by simp [hw0, writer.init]) (by simp [hw0, writer.init])
    (by simp [hw0, writer.init]) hok
  have hparams := writer.appendAll_params ps w0
  have hbuf : w1.buffer.length = nb * (w1.key_len + w1.val_len) := by
    rw [hw1, hfields.1]
    have h0 : w0.buffer = [] := rfl
    rw [h0, List.nil_append, encodeAll_length, hparams.2.2.2.1, hparams.2.2.2.2, hlen]
  have hfull : w1.buffer.length ≥ w1.nb_records * (w1.key_len + w1.val_len) := by
    rw [hbuf, hparams.1]
    show nb * (w1.key_len + w1.val_len) ≥ w0.nb_records * (w1.key_len + w1.val_len)
    have : w0.nb_records = nb := rfl
    rw [this]
  have := writer.appendAll_full w1 hfull qs
  exact ⟨this.2 hqs, this.1⟩

/-- C9 witness: a concrete full writer rejecting one more append. -/
theorem append_after_full_noop_witness :
    (writer.appendAll ((writer.appendAll (writer.init 1 8 8) [(2, 3)]).2) [(4, 5)]).1 = false ∧
    (writer.appendAll ((writer.appendAll (writer.init 1 8 8) [(2, 3)]).2) [(4, 5)]).2 =
      (writer.appendAll (writer.init 1 8 8) [(2, 3)]).2 :=
  append_after_full_noop 1 8 8 [(2, 3)] [(4, 5)] rfl (by decide) (by decide)

/-- C10: a successful append stores only the low 8 * key_len bits of the
key and the low 8 * val_len bits of the value, little-endian, while the
statistics are computed from the full untruncated value; concretely, with
a one-byte value field the value 256 >= 2 ^ 8 is counted as 256 in total
and max_count but reads back from the record as 0. -/
theorem append_truncates_value (w : WriterState) (k v : Nat)
    (h : (writer.append w k v).1 = true) :
    (writer.append w k v).2.buffer =
      w.buffer ++ leBytes w.key_len (k % 2 ^ (8 * w.key_len)) ++
        leBytes w.val_len (v % 2 ^ (8 * w.val_len)) ∧
    (writer.append w k v).2.unique = (w.unique + if v = 1 then 1 else 0) % 2 ^ 64 ∧
    (writer.append w k v).2.total = (w.total + v) % 2 ^ 64 ∧
    (writer.append w k v).2.max_count = max w.max_count v ∧
    ((writer.append (writer.init 1 8 8) 0 256).2.total = 256 ∧
     (writer.append (writer.init 1 8 8) 0 256).2.max_count = 256 ∧
     leDecode ((writer.append (writer.init 1 8 8) 0 256).2.buffer.drop 1) = 0 ∧
     2 ^ (8 * 1) ≤ 256) := by
  by_cases hc : w.buffer.length ≥ w.nb_records * (w.key_len + w.val_len)
  · exfalso
    rw [writer.append, if_pos hc] at h
    exact absurd h (by simp)
  · rw [writer.append, if_neg hc]
    refine ⟨?_, rfl, rfl, ?_, by decide, by decide, by decide, by decide⟩
    · rw [leBytes_mod_pow2, leBytes_mod_pow2]
    · show (if v > w.max_count then v else w.max_count) = max w.max_count v
      rw [Nat.max_def]
      split
      · split <;> omega
      · split <;> omega

/-- C10 witness: the truncation theorem applied at key 300, value 256 on
a writer with one-byte key and value fields. -/
theorem append_truncates_value_witness :
    (writer.append (writer.init 1 8 8) 300 256).2.buffer =
      [] ++ leBytes 1 (300 % 2 ^ (8 * 1)) ++ leBytes 1 (256 % 2 ^ (8 * 1)) ∧
    (writer.append (writer.init 1 8 8) 300 256).2.unique =
      (0 + if (256 : Nat) = 1 then 1 else 0) % 2 ^ 64 ∧
    (writer.append (writer.init 1 8 8) 300 256).2.total = (0 + 256) % 2 ^ 64 ∧
    (writer.append (writer.init 1 8 8) 300 256).2.max_count = max 0 256 ∧
    ((writer.append (writer.init 1 8 8) 0 256).2.total = 256 ∧
     (writer.append (writer.init 1 8 8) 0 256).2.max_count = 256 ∧
     leDecode ((writer.append (writer.init 1 8 8) 0 256).2.buffer.drop 1) = 0 ∧
     2 ^ (8 * 1) ≤ 256) :=
  append_truncates_value (writer.init 1 8 8) 300 256 (by decide)

/-- C8: write_header emits exactly 72 bytes: the magic "JFLISTDN", then
the key bit length, the value byte length, S and the reprobe field (the
value of ary->get_max_reprobe_offset()) as little-endian 64-bit
integers, then the four statistics fields as zero placeholders. -/
theorem write_header_layout (nb klen vlen size max_reprobe : Nat) :
    (writer.write_header (writer.init nb klen vlen) size max_reprobe).length = 72 ∧
    writer.write_header (writer.init nb klen vlen) size max_reprobe =
      magicBytes ++ leBytes 8 klen ++ leBytes 8 (bits_to_bytes vlen) ++
      leBytes 8 size ++ leBytes 8 max_reprobe ++ List.replicate 32 0 := by
  constructor
  · simp [writer.write_header, magicBytes, leBytes_length]
  · show magicBytes ++ leBytes 8 klen ++ leBytes 8 (bits_to_bytes vlen) ++
      leBytes 8 size ++ leBytes 8 max_reprobe ++
      leBytes 8 0 ++ leBytes 8 0 ++ leBytes 8 0 ++ leBytes 8 0 =
      magicBytes ++ leBytes 8 klen ++ leBytes 8 (bits_to_bytes vlen) ++
      leBytes 8 size ++ leBytes 8 max_reprobe ++ List.replicate 32 0
    have hz : leBytes 8 0 = List.replicate 8 0 := leBytes_zero 8
    rw [hz]
    have hrep : (List.replicate 8 (0 : Nat) ++ List.replicate 8 0 ++
        List.replicate 8 0 ++ List.replicate 8 0) = List.replicate 32 0 := by
      decide
    rw [← hrep]
    simp [List.append_assoc]

/-- C4: reader::initialize validates only the stream state and the magic;
it performs no power-of-two check on the size field.  A header whose size
is 3 (not a power of two) is accepted, and size_mask becomes 2. -/
def c4File : List Nat :=
  magicBytes ++ leBytes 8 16 ++ leBytes 8 1 ++ leBytes 8 3 ++ leBytes 8 0 ++
  leBytes 8 0 ++ leBytes 8 0 ++ leBytes 8 0 ++ leBytes 8 0

/-- C4: the file c4File has valid magic and size field 3, which is not a
power of two, yet reader::initialize accepts it (no BadHeader), deriving
size_mask = 2. -/
theorem init_accepts_non_pow2_size :
    (∀ i : Nat, (3 : Nat) ≠ 2 ^ i) ∧
    reader.init c4File =
      .ok { header := { key_len := 16, val_len := 1, size := 3, max_reprobe := 0,
                        unique := 0, distinct := 0, total := 0, max_count := 0 },
            key_len := 2, record_len := 3, size_mask := 2 } := by
  constructor
  · intro i h
    rcases i with _ | _ | i
    · simp at h
    · simp at h
    · have h4 : 4 ≤ 2 ^ (i + 2) := by
        calc (4 : Nat) = 2 ^ 2 := rfl
        _ ≤ 2 ^ (i + 2) := Nat.pow_le_pow_right (by norm_num) (by omega)
      omega
  · rfl

/-! ## Reader run lemmas -/

theorem encodeAll_take (kl vl : Nat) (ps : List (Nat × Nat)) :
    ∀ j : Nat, (encodeAll kl vl ps).take ((kl + vl) * j) =
      encodeAll kl vl (ps.take j) := by
  induction ps with
  | nil => intro j; simp [encodeAll]
  | cons p ps ih =>
      intro j
      match j with
      | 0 => simp [encodeAll]
      | j + 1 =>
          rw [encodeAll_cons, List.take_append_eq_append_take]
          have h1 : (encodeRecord kl vl p).take ((kl + vl) * (j + 1)) =
              encodeRecord kl vl p := by
            apply List.take_of_length_le
            rw [encodeRecord_length]
            nlinarith
          have h2 : (kl + vl) * (j + 1) - (encodeRecord kl vl p).length =
              (kl + vl) * j := by
            rw [encodeRecord_length]
            ring_nf
            omega
          rw [h1, h2, ih j, List.take_succ_cons, encodeAll_cons]

theorem encodeAll_drop (kl vl : Nat) (ps : List (Nat × Nat)) :
    ∀ j : Nat, (encodeAll kl vl ps).drop ((kl + vl) * j) =
      encodeAll kl vl (ps.drop j) := by
  induction ps with
  | nil => intro j; simp [encodeAll]
  | cons p ps ih =>
      intro j
      match j with
      | 0 => simp
      | j + 1 =>
          rw [encodeAll_cons, List.drop_append_eq_append_drop]
          have h1 : (encodeRecord kl vl p).drop ((kl + vl) * (j + 1)) = [] := by
            apply List.drop_eq_nil_of_le
            rw [encodeRecord_length]
            nlinarith
          have h2 : (kl + vl) * (j + 1) - (encodeRecord kl vl p).length =
              (kl + vl) * j := by
            rw [encodeRecord_length]
            ring_nf
            omega
          rw [h1, h2, ih j, List.drop_succ_cons, List.nil_append]

/-- Reader-state invariant: state s will deliver exactly the records ps.
qs are the records already sitting in the buffer past the cursor, rs the
records still in the stream; ebuf and estr are trailing garbage shorter
than one record (from a file that does not end on a record boundary).
Garbage enters the buffer only once every record has, and a raised fail
bit means the stream is exhausted. -/
def Represents (kl vl : Nat) (ps : List (Nat × Nat)) (s : ReaderSt) : Prop :=
  ∃ qs rs ebuf estr,
    ps = qs ++ rs ∧
    s.pos ≤ s.buf.length ∧
    s.buf.drop s.pos = encodeAll kl vl qs ++ ebuf ∧
    s.stream = encodeAll kl vl rs ++ estr ∧
    ebuf.length < kl + vl ∧
    estr.length < kl + vl ∧
    (ebuf ≠ [] → rs = []) ∧
    (s.filled = false → qs = []) ∧
    (s.fail = true → rs = [] ∧ s.stream = [])

/-- One parse step: with a complete record buffered at the cursor, the
loop returns it at once, and the advanced state represents the remaining
records. -/
theorem nextLoop_parse_rep (kl vl bl fuel : Nat) (s : ReaderSt)
    (p : Nat × Nat) (qs rs : List (Nat × Nat)) (ebuf estr : List Nat)
    (hps : s.buf.drop s.pos = encodeAll kl vl (p :: qs) ++ ebuf)
    (hpos : s.pos ≤ s.buf.length)
    (hfill : s.filled = true)
    (hstream : s.stream = encodeAll kl vl rs ++ estr)
    (hebuf : ebuf.length < kl + vl)
    (hestr : estr.length < kl + vl)
    (hgar : ebuf ≠ [] → rs = [])
    (hfail : s.fail = true → rs = [] ∧ s.stream = [])
    (hb1 : p.1 < 256 ^ kl) (hb2 : p.2 < 256 ^ vl) :
    nextLoop kl vl bl (fuel + 1) s =
      (some p, { s with pos := s.pos + (kl + vl) }) ∧
    Represents kl vl (qs ++ rs) { s with pos := s.pos + (kl + vl) } := by
  have hlen : (s.buf.drop s.pos).length =
      (kl + vl) + ((encodeAll kl vl qs).length + ebuf.length) := by
    rw [hps, encodeAll_cons]
    simp [encodeRecord_length]
  rw [List.length_drop] at hlen
  have hcond : s.pos + (kl + vl) ≤ s.buf.length := by omega
  have hsplit : s.buf.drop s.pos =
      leBytes kl p.1 ++ (leBytes vl p.2 ++ (encodeAll kl vl qs ++ ebuf)) := by
    rw [hps, encodeAll_cons, encodeRecord]
    simp [List.append_assoc]
  have htake : (s.buf.drop s.pos).take kl = leBytes kl p.1 := by
    have h := List.take_left (leBytes kl p.1)
      (leBytes vl p.2 ++ (encodeAll kl vl qs ++ ebuf))
    rw [leBytes_length] at h
    rw [hsplit, h]
  have hdropkl : (s.buf.drop s.pos).drop kl =
      leBytes vl p.2 ++ (encodeAll kl vl qs ++ ebuf) := by
    have h := List.drop_left (leBytes kl p.1)
      (leBytes vl p.2 ++ (encodeAll kl vl qs ++ ebuf))
    rw [leBytes_length] at h
    rw [hsplit, h]
  have htakevl : ((s.buf.drop s.pos).drop kl).take vl = leBytes vl p.2 := by
    have h := List.take_left (leBytes vl p.2) (encodeAll kl vl qs ++ ebuf)
    rw [leBytes_length] at h
    rw [hdropkl, h]
  constructor
  · simp only [nextLoop]
    rw [if_pos ⟨hfill, hcond⟩, htake, htakevl,
        leDecode_leBytes kl p.1 hb1, leDecode_leBytes vl p.2 hb2]
  · refine ⟨qs, rs, ebuf, estr, rfl, hcond, ?_, hstream, hebuf, hestr, hgar,
      ?_, hfail⟩
    · show s.buf.drop (s.pos + (kl + vl)) = encodeAll kl vl qs ++ ebuf
      have hdd : s.buf.drop (s.pos + (kl + vl)) =
          ((s.buf.drop s.pos).drop kl).drop vl := by
        rw [List.drop_drop, List.drop_drop]
      rw [hdd, hdropkl]
      have h := List.drop_left (leBytes vl p.2) (encodeAll kl vl qs ++ ebuf)
      rw [leBytes_length] at h
      rw [h]
    · intro hf
      rw [hfill] at hf
      exact absurd hf (by simp)

/-- A loop iteration that neither parses nor fails refills the buffer
from the stream and continues. -/
theorem nextLoop_refill (kl vl bl fuel : Nat) (s : ReaderSt)
    (hnp : ¬(s.filled = true ∧ s.pos + (kl + vl) ≤ s.buf.length))
    (hnf : s.fail = false) :
    nextLoop kl vl bl (fuel + 1) s =
      nextLoop kl vl bl fuel
        { stream := s.stream.drop (min bl s.stream.length),
          buf := s.stream.take (min bl s.stream.length), pos := 0,
          filled := decide (kl + vl ≤ min bl s.stream.length),
          fail := decide (min bl s.stream.length < bl) } := by
  simp only [nextLoop]
  rw [if_neg hnp, if_neg (by simp [hnf])]

/-- Any state representing a record list headed by p yields p from
reader::next, leaving a state representing the tail. -/
theorem next_cons (kl vl m : Nat) (hrl : 0 < kl + vl) (hm : 0 < m)
    (p : Nat × Nat) (ps : List (Nat × Nat)) (s : ReaderSt)
    (hrep : Represents kl vl (p :: ps) s)
    (hb1 : p.1 < 256 ^ kl) (hb2 : p.2 < 256 ^ vl) :
    ∃ s2, reader.next kl vl ((kl + vl) * m) s = (some p, s2) ∧
      Represents kl vl ps s2 := by
  obtain ⟨qs, rs, ebuf, estr, hsplit, hpos, hbuf, hstream, hebuf, hestr,
    hgar, hfill0, hfail0⟩ := hrep
  have hfuel : 2 * s.stream.length + 2 = (2 * s.stream.length + 1) + 1 := rfl
  match qs, hsplit with
  | q :: qs1, hsplit =>
      have hpq : p = q ∧ ps = qs1 ++ rs := by
        rw [List.cons_append] at hsplit
        exact ⟨(List.cons.injEq _ _ _ _ ▸ hsplit).1,
               (List.cons.injEq _ _ _ _ ▸ hsplit).2⟩
      obtain ⟨hp, hps⟩ := hpq
      subst hp
      have hfill : s.filled = true := by
        cases hft : s.filled
        · exact absurd (hfill0 hft) (by simp)
        · rfl
      have h := nextLoop_parse_rep kl vl ((kl + vl) * m)
        (2 * s.stream.length + 1) s p qs1 rs ebuf estr hbuf hpos hfill
        hstream hebuf hestr hgar hfail0 hb1 hb2
      refine ⟨{ s with pos := s.pos + (kl + vl) }, ?_, ?_⟩
      · show nextLoop kl vl ((kl + vl) * m) (2 * s.stream.length + 2) s = _
        rw [hfuel, h.1]
      · rw [hps]
        exact h.2
  | [], hsplit =>
      have hrs : rs = p :: ps := by simpa using hsplit.symm
      have hfail : s.fail = false := by
        cases hft : s.fail
        · rfl
        · exact absurd (hfail0 hft).1 (by simp [hrs])
      have hbufe : s.buf.drop s.pos = ebuf := by
        simpa [encodeAll_nil] using hbuf
      have hlenb : s.buf.length - s.pos < kl + vl := by
        have := congrArg List.length hbufe
        rw [List.length_drop] at this
        omega
      have hnp : ¬(s.filled = true ∧ s.pos + (kl + vl) ≤ s.buf.length) := by
        rintro ⟨-, hc⟩
        omega
      have hL : s.stream.length = rs.length * (kl + vl) + estr.length := by
        rw [hstream]
        simp [encodeAll_length]
      have hLlow : kl + vl ≤ s.stream.length := by
        rw [hL, hrs]
        nlinarith [List.length_cons p ps]
      set bl := (kl + vl) * m with hbl
      set g := min bl s.stream.length with hgdef
      set s1 : ReaderSt :=
        { stream := s.stream.drop g, buf := s.stream.take g, pos := 0,
          filled := decide (kl + vl ≤ g), fail := decide (g < bl) } with hs1
      have hrefill : nextLoop kl vl bl (2 * s.stream.length + 1 + 1) s =
          nextLoop kl vl bl (2 * s.stream.length + 1) s1 :=
        nextLoop_refill kl vl bl (2 * s.stream.length + 1) s hnp hfail
      have hglow : kl + vl ≤ g := by
        rw [hgdef, hbl]
        refine le_min ?_ hLlow
        nlinarith
      have hfill1 : s1.filled = true := by
        show decide (kl + vl ≤ g) = true
        simpa using hglow
      have henc : (encodeAll kl vl rs).length = (kl + vl) * rs.length := by
        rw [encodeAll_length]
        ring
      have hpos1 : s1.pos ≤ s1.buf.length := Nat.zero_le _
      by_cases hLb : s.stream.length ≤ bl
      · -- the read takes the whole remaining stream
        have hg : g = s.stream.length := by
          rw [hgdef]
          exact min_eq_right hLb
        have hbuf1 : s1.buf = encodeAll kl vl (p :: ps) ++ estr := by
          show s.stream.take g = _
          rw [hg, List.take_of_length_le (le_refl _), hstream, hrs]
        have hstream1 : s1.stream = encodeAll kl vl [] ++ [] := by
          show s.stream.drop g = _
          rw [hg, List.drop_eq_nil_of_le (le_refl _), encodeAll_nil,
              List.nil_append]
        have hps1 : s1.buf.drop s1.pos = encodeAll kl vl (p :: ps) ++ estr := by
          show s1.buf.drop 0 = _
          rw [List.drop_zero, hbuf1]
        have h := nextLoop_parse_rep kl vl bl (2 * s.stream.length) s1 p ps []
          estr [] hps1 hpos1 hfill1 hstream1 hestr (by simpa using hrl)
          (fun _ => rfl)
          (fun _ => ⟨rfl, by rw [hstream1, encodeAll_nil, List.nil_append]⟩)
          hb1 hb2
        refine ⟨{ s1 with pos := s1.pos + (kl + vl) }, ?_, ?_⟩
        · show nextLoop kl vl bl (2 * s.stream.length + 2) s = _
          rw [show 2 * s.stream.length + 2 = 2 * s.stream.length + 1 + 1 from rfl,
              hrefill,
              show (2 : Nat) * s.stream.length + 1 = (2 * s.stream.length) + 1
                from rfl, h.1]
        · simpa using h.2
      · -- the read fills a whole buffer of bl bytes
        push_neg at hLb
        have hg : g = bl := by
          rw [hgdef]
          exact min_eq_left (by omega)
        have hfail1 : s1.fail = false := by
          show decide (g < bl) = false
          rw [hg]
          simp
        by_cases hall : bl ≤ (kl + vl) * rs.length
        · -- at least m whole records remain in the stream
          have hmrs : m ≤ rs.length := Nat.le_of_mul_le_mul_left hall hrl
          obtain ⟨m1, rfl⟩ : ∃ m1, m = m1 + 1 := ⟨m - 1, by omega⟩
          have hbuf1 : s1.buf = encodeAll kl vl (p :: ps.take m1) ++ [] := by
            show s.stream.take g = _
            rw [hg, hstream, List.take_append_eq_append_take]
            have h1 : (encodeAll kl vl rs).take bl =
                encodeAll kl vl (rs.take (m1 + 1)) := by
              rw [hbl]
              exact encodeAll_take kl vl rs (m1 + 1)
            have h2 : bl - (encodeAll kl vl rs).length = 0 := by omega
            rw [h1, h2, List.take_zero, List.append_nil, hrs,
                List.take_succ_cons, List.append_nil]
          have hstream1 : s1.stream =
              encodeAll kl vl (ps.drop m1) ++ estr := by
            show s.stream.drop g = _
            rw [hg, hstream, List.drop_append_eq_append_drop]
            have h1 : (encodeAll kl vl rs).drop bl =
                encodeAll kl vl (rs.drop (m1 + 1)) := by
              rw [hbl]
              exact encodeAll_drop kl vl rs (m1 + 1)
            have h2 : bl - (encodeAll kl vl rs).length = 0 := by omega
            rw [h1, h2, List.drop_zero, hrs, List.drop_succ_cons]
          have hps1 : s1.buf.drop s1.pos =
              encodeAll kl vl (p :: ps.take m1) ++ [] := by
            show s1.buf.drop 0 = _
            rw [List.drop_zero, hbuf1]
          have h := nextLoop_parse_rep kl vl bl (2 * s.stream.length) s1 p
            (ps.take m1) (ps.drop m1) [] estr hps1 hpos1 hfill1 hstream1
            (by simpa using hrl) hestr (fun hne => absurd rfl hne)
            (fun hc => absurd hc (by rw [hfail1]; simp)) hb1 hb2
          refine ⟨{ s1 with pos := s1.pos + (kl + vl) }, ?_, ?_⟩
          · show nextLoop kl vl bl (2 * s.stream.length + 2) s = _
            rw [show 2 * s.stream.length + 2 = 2 * s.stream.length + 1 + 1
                  from rfl,
                hrefill,
                show (2 : Nat) * s.stream.length + 1 = (2 * s.stream.length) + 1
                  from rfl, h.1]
          · have := h.2
            rwa [List.take_append_drop] at this
        · -- fewer than m records remain: all records plus some garbage
          push_neg at hall
          set e1 := estr.take (bl - (kl + vl) * rs.length) with he1
          set e2 := estr.drop (bl - (kl + vl) * rs.length) with he2
          have hestrlen : (kl + vl) * rs.length + estr.length =
              s.stream.length := by
            rw [hL]
            ring
          have hbuf1 : s1.buf = encodeAll kl vl (p :: ps) ++ e1 := by
            show s.stream.take g = _
            rw [hg, hstream, List.take_append_eq_append_take]
            have h1 : (encodeAll kl vl rs).take bl = encodeAll kl vl rs :=
              List.take_of_length_le (by omega)
            rw [h1, henc, ← he1, hrs]
          have hstream1 : s1.stream = encodeAll kl vl [] ++ e2 := by
            show s.stream.drop g = _
            rw [hg, hstream, List.drop_append_eq_append_drop]
            have h1 : (encodeAll kl vl rs).drop bl = [] :=
              List.drop_eq_nil_of_le (by omega)
            rw [h1, henc, ← he2, encodeAll_nil]
          have he1len : e1.length < kl + vl := by
            rw [he1]
            have := List.length_take_le (bl - (kl + vl) * rs.length) estr
            omega
          have he2len : e2.length < kl + vl := by
            rw [he2]
            have := List.length_drop (bl - (kl + vl) * rs.length) estr
            omega
          have hps1 : s1.buf.drop s1.pos = encodeAll kl vl (p :: ps) ++ e1 := by
            show s1.buf.drop 0 = _
            rw [List.drop_zero, hbuf1]
          have h := nextLoop_parse_rep kl vl bl (2 * s.stream.length) s1 p ps
            [] e1 e2 hps1 hpos1 hfill1 hstream1 he1len he2len
            (fun _ => rfl) (fun hc => absurd hc (by rw [hfail1]; simp)) hb1 hb2
          refine ⟨{ s1 with pos := s1.pos + (kl + vl) }, ?_, ?_⟩
          · show nextLoop kl vl bl (2 * s.stream.length + 2) s = _
            rw [show 2 * s.stream.length + 2 = 2 * s.stream.length + 1 + 1
                  from rfl,
                hrefill,
                show (2 : Nat) * s.stream.length + 1 = (2 * s.stream.length) + 1
                  from rfl, h.1]
          · simpa using h.2

/-- A state representing no further records makes reader::next return
false. -/
theorem next_nil (kl vl m : Nat) (_hrl : 0 < kl + vl) (hm : 0 < m)
    (s : ReaderSt) (hrep : Represents kl vl [] s) :
    (reader.next kl vl ((kl + vl) * m) s).1 = none := by
  obtain ⟨qs, rs, ebuf, estr, hsplit, hpos, hbuf, hstream, hebuf, hestr,
    hgar, hfill0, hfail0⟩ := hrep
  have hqs : qs = [] := (List.append_eq_nil.mp hsplit.symm).1
  have hrs : rs = [] := (List.append_eq_nil.mp hsplit.symm).2
  subst hqs
  subst hrs
  have hbufe : s.buf.drop s.pos = ebuf := by
    simpa [encodeAll_nil] using hbuf
  have hlenb : s.buf.length - s.pos < kl + vl := by
    have := congrArg List.length hbufe
    rw [List.length_drop] at this
    omega
  have hnp : ¬(s.filled = true ∧ s.pos + (kl + vl) ≤ s.buf.length) := by
    rintro ⟨-, hc⟩
    omega
  have hstr : s.stream = estr := by
    simpa [encodeAll_nil] using hstream
  set bl := (kl + vl) * m with hbl
  have hblge : kl + vl ≤ bl := by
    rw [hbl]
    nlinarith
  show (nextLoop kl vl bl (2 * s.stream.length + 2) s).1 = none
  by_cases hf : s.fail = true
  · rw [show 2 * s.stream.length + 2 = (2 * s.stream.length + 1) + 1 from rfl]
    simp only [nextLoop]
    rw [if_neg hnp, if_pos hf]
  · have hf2 : s.fail = false := by
      cases hft : s.fail
      · rfl
      · exact absurd hft hf
    have hLlt : s.stream.length < kl + vl := by
      rw [hstr]
      omega
    set g := min bl s.stream.length with hgdef
    set s1 : ReaderSt :=
      { stream := s.stream.drop g, buf := s.stream.take g, pos := 0,
        filled := decide (kl + vl ≤ g), fail := decide (g < bl) } with hs1
    have hrefill : nextLoop kl vl bl (2 * s.stream.length + 1 + 1) s =
        nextLoop kl vl bl (2 * s.stream.length + 1) s1 :=
      nextLoop_refill kl vl bl (2 * s.stream.length + 1) s hnp hf2
    have hgL : g = s.stream.length := by
      rw [hgdef]
      exact min_eq_right (by omega)
    have hfill1 : s1.filled = false := by
      show decide (kl + vl ≤ g) = false
      simp
      omega
    have hfail1 : s1.fail = true := by
      show decide (g < bl) = true
      simp
      omega
    have hnp1 : ¬(s1.filled = true ∧ s1.pos + (kl + vl) ≤ s1.buf.length) := by
      rintro ⟨hc, -⟩
      rw [hfill1] at hc
      exact absurd hc (by simp)
    rw [show 2 * s.stream.length + 2 = (2 * s.stream.length + 1) + 1 from rfl,
        hrefill,
        show (2 : Nat) * s.stream.length + 1 = (2 * s.stream.length) + 1
          from rfl]
    simp only [nextLoop]
    rw [if_neg hnp1, if_pos hfail1]

/-- Iterating reader::next over a state representing records ps yields
exactly ps. -/
theorem runReader_spec (kl vl m : Nat) (hrl : 0 < kl + vl) (hm : 0 < m)
    (ps : List (Nat × Nat)) :
    ∀ s : ReaderSt, Represents kl vl ps s →
    (∀ r ∈ ps, r.1 < 256 ^ kl ∧ r.2 < 256 ^ vl) →
    runReader kl vl ((kl + vl) * m) (ps.length + 1) s = ps := by
  induction ps with
  | nil =>
      intro s hrep _
      have h := next_nil kl vl m hrl hm s hrep
      rcases hres : reader.next kl vl ((kl + vl) * m) s with ⟨o, s2⟩
      rw [hres] at h
      simp at h
      subst h
      simp [runReader, hres]
  | cons p ps ih =>
      intro s hrep hb
      obtain ⟨s2, hnext, hrep2⟩ := next_cons kl vl m hrl hm p ps s hrep
        (hb p (by simp)).1 (hb p (by simp)).2
      have hstep : runReader kl vl ((kl + vl) * m) (ps.length + 1 + 1) s =
          p :: runReader kl vl ((kl + vl) * m) (ps.length + 1) s2 := by
        simp only [runReader, hnext]
      rw [List.length_cons, hstep,
          ih s2 hrep2 (fun r hr => hb r (List.mem_cons_of_mem p hr))]

/-- The initial reader state over the encoded records followed by
trailing garbage shorter than a record represents exactly those
records. -/
theorem represents_start (kl vl : Nat) (hrl : 0 < kl + vl)
    (ps : List (Nat × Nat)) (extra : List Nat)
    (hex : extra.length < kl + vl) :
    Represents kl vl ps (ReaderSt.start (encodeAll kl vl ps ++ extra)) := by
  refine ⟨[], ps, [], extra, by simp, by simp [ReaderSt.start], ?_, rfl,
    by simpa using hrl, hex, by simp, fun _ => rfl, ?_⟩
  · show ([] : List Nat).drop 0 = encodeAll kl vl [] ++ []
    simp [encodeAll_nil]
  · intro hc
    exact absurd hc (by simp [ReaderSt.start])

/-! ## Claims about the reader -/

/-- C2 counterexample: three appended values summing to 2 ^ 64 + 5 leave
the uint64 total counter at 5, so the header statistic does not equal the
arithmetic summary of the inputs. -/
theorem round_trip_total_wrap_cex :
    (writer.appendAll (writer.init 3 8 64)
      [(0, 2 ^ 63), (1, 2 ^ 62), (2, 2 ^ 62 + 5)]).1 = true ∧
    (writer.appendAll (writer.init 3 8 64)
      [(0, 2 ^ 63), (1, 2 ^ 62), (2, 2 ^ 62 + 5)]).2.total = 5 ∧
    sumVals [(0, 2 ^ 63), (1, 2 ^ 62), (2, 2 ^ 62 + 5)] = 2 ^ 64 + 5 ∧
    (5 : Nat) ≠ 2 ^ 64 + 5 := by
  refine ⟨by decide, by decide, by decide, by decide⟩

/-- C2 (amended): appending pairs whose keys fit ceil(kb/8) bytes and
whose values fit vb bytes to a fresh writer (all appends succeeding),
dumping, and reading the dumped stream back with reader::next yields
exactly the same sequence of pairs; and the counters that update_stats
writes into the header equal the summary of the inputs with the uint64
total reduced modulo 2 ^ 64 (unique, distinct and max_count are exact,
total can wrap).  mrd is the number of records per read buffer
(buffer_len = record_len * (buff_len / record_len) in the source). -/
theorem compacted_round_trip (nb klen vlen mrd : Nat) (ps : List (Nat × Nat))
    (hnb : nb < 2 ^ 64) (hmrd : 0 < mrd)
    (hrl : 0 < bits_to_bytes klen + bits_to_bytes vlen)
    (hkey : ∀ r ∈ ps, r.1 < 2 ^ (8 * bits_to_bytes klen))
    (hval : ∀ r ∈ ps, r.2 < 2 ^ (8 * bits_to_bytes vlen))
    (hok : (writer.appendAll (writer.init nb klen vlen) ps).1 = true) :
    runReader (bits_to_bytes klen) (bits_to_bytes vlen)
        ((bits_to_bytes klen + bits_to_bytes vlen) * mrd) (ps.length + 1)
        (ReaderSt.start
          (writer.dump (writer.appendAll (writer.init nb klen vlen) ps).2).1)
      = ps ∧
    (writer.appendAll (writer.init nb klen vlen) ps).2.unique = countOnes ps ∧
    (writer.appendAll (writer.init nb klen vlen) ps).2.distinct = ps.length ∧
    (writer.appendAll (writer.init nb klen vlen) ps).2.total =
      sumVals ps % 2 ^ 64 ∧
    (writer.appendAll (writer.init nb klen vlen) ps).2.max_count = maxVals ps := by
  have hstats := writer.init_stats nb klen vlen ps hnb hok
  have hfields := writer.appendAll_fields ps (writer.init nb klen vlen)
    (by simp [writer.init]) (by simp [writer.init]) (by simp [writer.init]) hok
  have hbuf : (writer.dump (writer.appendAll (writer.init nb klen vlen) ps).2).1 =
      encodeAll (bits_to_bytes klen) (bits_to_bytes vlen) ps := by
    show (writer.appendAll (writer.init nb klen vlen) ps).2.buffer = _
    rw [hfields.1]
    rfl
  refine ⟨?_, hstats.1, hstats.2.1, hstats.2.2.1, hstats.2.2.2⟩
  rw [hbuf]
  have hbytes : ∀ r ∈ ps, r.1 < 256 ^ bits_to_bytes klen ∧
      r.2 < 256 ^ bits_to_bytes vlen := by
    intro r hr
    have h1 := hkey r hr
    have h2 := hval r hr
    rw [pow_mul] at h1 h2
    norm_num at h1 h2
    exact ⟨h1, h2⟩
  have hrep := represents_start (bits_to_bytes klen) (bits_to_bytes vlen) hrl
    ps [] hrl
  rw [List.append_nil] at hrep
  exact runReader_spec (bits_to_bytes klen) (bits_to_bytes vlen) mrd hrl hmrd
    ps _ hrep hbytes

/-- C2 witness: a concrete dump and re-read of two records. -/
theorem compacted_round_trip_witness :
    runReader (bits_to_bytes 8) (bits_to_bytes 8)
        ((bits_to_bytes 8 + bits_to_bytes 8) * 3) ([(7, 2), (9, 1)].length + 1)
        (ReaderSt.start
          (writer.dump (writer.appendAll (writer.init 2 8 8) [(7, 2), (9, 1)]).2).1)
      = [(7, 2), (9, 1)] ∧
    (writer.appendAll (writer.init 2 8 8) [(7, 2), (9, 1)]).2.unique =
      countOnes [(7, 2), (9, 1)] ∧
    (writer.appendAll (writer.init 2 8 8) [(7, 2), (9, 1)]).2.distinct =
      [(7, 2), (9, 1)].length ∧
    (writer.appendAll (writer.init 2 8 8) [(7, 2), (9, 1)]).2.total =
      sumVals [(7, 2), (9, 1)] % 2 ^ 64 ∧
    (writer.appendAll (writer.init 2 8 8) [(7, 2), (9, 1)]).2.max_count =
      maxVals [(7, 2), (9, 1)] :=
  compacted_round_trip 2 8 8 3 [(7, 2), (9, 1)] (by norm_num) (by norm_num)
    (by decide) (by decide) (by decide) (by decide)

/-- C3 counterexample: a stream of two whole records followed by one
stray byte is read exactly like the clean stream: reader::next yields the
two records and then reports end of data (false).  No error of any kind
is raised; reader::next has no error outcome at all (the truncation check
in the source is commented out). -/
theorem truncated_record_silent_cex :
    runReader 1 1 4 3 (ReaderSt.start (encodeAll 1 1 [(1, 2), (3, 4)] ++ [5]))
      = [(1, 2), (3, 4)] ∧
    runReader 1 1 4 3 (ReaderSt.start (encodeAll 1 1 [(1, 2), (3, 4)]))
      = [(1, 2), (3, 4)] := by
  refine ⟨by decide, by decide⟩

/-- C3 (amended): a trailing incomplete record is silently discarded: the
reader yields exactly the whole records of the stream and then next()
returns false, identically to a stream ending on a record boundary;
no error is reported. -/
theorem reader_drops_trailing_bytes (kl vl mrd : Nat) (ps : List (Nat × Nat))
    (extra : List Nat) (hrl : 0 < kl + vl) (hmrd : 0 < mrd)
    (hex : extra.length < kl + vl)
    (hkey : ∀ r ∈ ps, r.1 < 2 ^ (8 * kl))
    (hval : ∀ r ∈ ps, r.2 < 2 ^ (8 * vl)) :
    runReader kl vl ((kl + vl) * mrd) (ps.length + 1)
        (ReaderSt.start (encodeAll kl vl ps ++ extra)) = ps ∧
    runReader kl vl ((kl + vl) * mrd) (ps.length + 1)
        (ReaderSt.start (encodeAll kl vl ps)) = ps := by
  have hbytes : ∀ r ∈ ps, r.1 < 256 ^ kl ∧ r.2 < 256 ^ vl := by
    intro r hr
    have h1 := hkey r hr
    have h2 := hval r hr
    rw [pow_mul] at h1 h2
    norm_num at h1 h2
    exact ⟨h1, h2⟩
  constructor
  · exact runReader_spec kl vl mrd hrl hmrd ps _
      (represents_start kl vl hrl ps extra hex) hbytes
  · have hrep := represents_start kl vl hrl ps [] hrl
    rw [List.append_nil] at hrep
    exact runReader_spec kl vl mrd hrl hmrd ps _ hrep hbytes

/-- C3 witness: the amended theorem applied to one record plus one stray
byte. -/
theorem reader_drops_trailing_bytes_witness :
    runReader 1 1 ((1 + 1) * 2) ([(6, 7)].length + 1)
        (ReaderSt.start (encodeAll 1 1 [(6, 7)] ++ [9])) = [(6, 7)] ∧
    runReader 1 1 ((1 + 1) * 2) ([(6, 7)].length + 1)
        (ReaderSt.start (encodeAll 1 1 [(6, 7)])) = [(6, 7)] :=
  reader_drops_trailing_bytes 1 1 2 [(6, 7)] [9] (by norm_num) (by norm_num)
    (by norm_num) (by decide) (by decide)

/-! ## Query lemmas -/

namespace query

/-- The sort order of the compacted file: records ascending by
(H(K) mod S, K), strictly. -/
def posKeyLt (q : QueryFile) (a b : Nat × Nat) : Prop :=
  q.hash a.1 % q.size < q.hash b.1 % q.size ∨
  (q.hash a.1 % q.size = q.hash b.1 % q.size ∧ a.1 < b.1)

instance posKeyLt.instDecidable (q : QueryFile) : DecidableRel (posKeyLt q) :=
  fun _ _ => inferInstanceAs (Decidable (_ ∨ _))

/-- The compacted file is sorted by (H(K) mod S, K) ascending; strict
order makes the keys pairwise distinct. -/
def SortedFile (q : QueryFile) : Prop := q.recs.Pairwise (posKeyLt q)

instance SortedFile.instDecidable (q : QueryFile) : Decidable (SortedFile q) :=
  inferInstanceAs (Decidable (q.recs.Pairwise (posKeyLt q)))

/-- With S a power of two the position mask computes H(K) mod S. -/
theorem getPos_eq_mod (q : QueryFile) (l : Nat) (hsize : q.size = 2 ^ l)
    (k : Nat) : getPos q k = q.hash k % q.size := by
  rw [getPos, hsize]
  exact Nat.and_pow_two_sub_one_eq_mod _ l

theorem sorted_get (q : QueryFile) (hs : SortedFile q) (i j : Nat)
    (hij : i < j) (hj : j < q.recs.length) :
    posKeyLt q (q.recs.getD i (0, 0)) (q.recs.getD j (0, 0)) := by
  have hi : i < q.recs.length := by omega
  have h := List.pairwise_iff_get.mp hs ⟨i, hi⟩ ⟨j, hj⟩ hij
  rwa [List.get_eq_getElem, List.get_eq_getElem,
       ← List.getD_eq_getElem q.recs (0, 0) hi,
       ← List.getD_eq_getElem q.recs (0, 0) hj] at h

/-- Strict sorting makes record keys injective in their index. -/
theorem sorted_key_inj (q : QueryFile) (hs : SortedFile q) (i j : Nat)
    (hi : i < q.recs.length) (hj : j < q.recs.length)
    (hk : keyAt q i = keyAt q j) : i = j := by
  rcases lt_trichotomy i j with h | h | h
  · exfalso
    have := sorted_get q hs i j h hj
    rcases this with h1 | h1
    · rw [show (q.recs.getD i (0, 0)).1 = keyAt q i from rfl,
          show (q.recs.getD j (0, 0)).1 = keyAt q j from rfl, hk] at h1
      omega
    · rw [show (q.recs.getD i (0, 0)).1 = keyAt q i from rfl,
          show (q.recs.getD j (0, 0)).1 = keyAt q j from rfl, hk] at h1
      omega
  · exact h
  · exfalso
    have := sorted_get q hs j i h hi
    rcases this with h1 | h1
    · rw [show (q.recs.getD i (0, 0)).1 = keyAt q i from rfl,
          show (q.recs.getD j (0, 0)).1 = keyAt q j from rfl, hk] at h1
      omega
    · rw [show (q.recs.getD i (0, 0)).1 = keyAt q i from rfl,
          show (q.recs.getD j (0, 0)).1 = keyAt q j from rfl, hk] at h1
      omega

/-- The binary search finds the record of a present key: when the sorted
file holds (K, v) at index i with first < i < last, the loop returns
v. -/
theorem bsearch_found (q : QueryFile) (l : Nat) (hsize : q.size = 2 ^ l)
    (hs : SortedFile q) (K v i : Nat) (hi : i < q.recs.length)
    (hkey : keyAt q i = K) (hval : valAt q i = v) :
    ∀ d first last, last - first ≤ d → first < i → i < last →
      last ≤ q.recs.length →
      bsearch q (getPos q K) K first last = v := by
  have hgp : ∀ k, getPos q k = q.hash k % q.size := getPos_eq_mod q l hsize
  intro d
  induction d with
  | zero =>
      intro first last h1 h2 h3 _
      omega
  | succ d ih =>
      intro first last h1 h2 h3 h4
      rw [bsearch]
      have hcond : first < last - 1 := by omega
      rw [dif_pos hcond]
      simp only []
      set middle := (first + last) / 2 with hmiddef
      have hmid : first < middle ∧ middle < last := by omega
      by_cases hkm : K = keyAt q middle
      · rw [if_pos hkm]
        have hmi : middle = i :=
          sorted_key_inj q hs middle i (by omega) hi
            (by rw [← hkm, hkey])
        rw [hmi, hval]
      · rw [if_neg hkm]
        by_cases hcmp : getPos q (keyAt q middle) > getPos q K ∨
            (getPos q (keyAt q middle) = getPos q K ∧ keyAt q middle > K)
        · rw [if_pos hcmp]
          have him : i < middle := by
            rcases Nat.lt_or_ge i middle with h | h
            · exact h
            · exfalso
              have hmneq : middle ≠ i := fun he =>
                hkm (he ▸ hkey).symm
              have hmlt : middle < i := by omega
              have hso := sorted_get q hs middle i hmlt hi
              rw [hgp, hgp] at hcmp
              rcases hso with h1 | h1 <;>
                rcases hcmp with h2 | h2 <;>
                simp only [show (q.recs.getD middle (0, 0)).1 = keyAt q middle
                    from rfl,
                  show (q.recs.getD i (0, 0)).1 = keyAt q i from rfl,
                  hkey] at h1 <;>
                omega
          exact ih first middle (by omega) h2 him (by omega)
        · rw [if_neg hcmp]
          have hmi : middle < i := by
            rcases Nat.lt_or_ge middle i with h | h
            · exact h
            · exfalso
              have hmneq : middle ≠ i := fun he =>
                hkm (he ▸ hkey).symm
              have hilt : i < middle := by omega
              have hso := sorted_get q hs i middle hilt (by omega)
              push_neg at hcmp
              rw [hgp, hgp] at hcmp
              rcases hso with h1 | h1 <;>
                simp only [show (q.recs.getD middle (0, 0)).1 = keyAt q middle
                    from rfl,
                  show (q.recs.getD i (0, 0)).1 = keyAt q i from rfl,
                  hkey] at h1 <;>
                omega
          exact ih middle last (by omega) hmi h3 h4

/-- The binary search returns 0 when no record in the file carries the
searched key. -/
theorem bsearch_absent (q : QueryFile) (K pos : Nat)
    (habs : ∀ j, j < q.recs.length → keyAt q j ≠ K) :
    ∀ d first last, last - first ≤ d → last ≤ q.recs.length →
      bsearch q pos K first last = 0 := by
  intro d
  induction d with
  | zero =>
      intro first last h1 h2
      rw [bsearch]
      rw [dif_neg (by omega)]
  | succ d ih =>
      intro first last h1 h2
      rw [bsearch]
      by_cases hcond : first < last - 1
      · rw [dif_pos hcond]
        simp only []
        set middle := (first + last) / 2 with hmiddef
        have hmid : first < middle ∧ middle < last := by omega
        have hkm : ¬(K = keyAt q middle) := fun he =>
          habs middle (by omega) he.symm
        rw [if_neg hkm]
        by_cases hcmp : getPos q (keyAt q middle) > pos ∨
            (getPos q (keyAt q middle) = pos ∧ keyAt q middle > K)
        · rw [if_pos hcmp]
          exact ih first middle (by omega) (by omega)
        · rw [if_neg hcmp]
          exact ih middle last (by omega) h2
      · rw [dif_neg hcond]

/-- The binary search never produces anything but 0 or a value stored
under the searched key. -/
theorem bsearch_result (q : QueryFile) (K pos : Nat) :
    ∀ d first last, last - first ≤ d → last ≤ q.recs.length →
      bsearch q pos K first last = 0 ∨
      ∃ i, i < q.recs.length ∧ keyAt q i = K ∧
        bsearch q pos K first last = valAt q i := by
  intro d
  induction d with
  | zero =>
      intro first last h1 h2
      left
      rw [bsearch]
      rw [dif_neg (by omega)]
  | succ d ih =>
      intro first last h1 h2
      by_cases hcond : first < last - 1
      · have hmid : first < (first + last) / 2 ∧ (first + last) / 2 < last := by
          omega
        by_cases hkm : K = keyAt q ((first + last) / 2)
        · right
          refine ⟨(first + last) / 2, by omega, hkm.symm, ?_⟩
          rw [bsearch, dif_pos hcond]
          simp only []
          rw [if_pos hkm]
        · have hunf : bsearch q pos K first last =
              if getPos q (keyAt q ((first + last) / 2)) > pos ∨
                  (getPos q (keyAt q ((first + last) / 2)) = pos ∧
                    keyAt q ((first + last) / 2) > K) then
                bsearch q pos K first ((first + last) / 2)
              else
                bsearch q pos K ((first + last) / 2) last := by
            rw [bsearch, dif_pos hcond]
            simp only []
            rw [if_neg hkm]
          rw [hunf]
          by_cases hcmp : getPos q (keyAt q ((first + last) / 2)) > pos ∨
              (getPos q (keyAt q ((first + last) / 2)) = pos ∧
                keyAt q ((first + last) / 2) > K)
          · rw [if_pos hcmp]
            exact ih first ((first + last) / 2) (by omega) (by omega)
          · rw [if_neg hcmp]
            exact ih ((first + last) / 2) last (by omega) h2
      · left
        rw [bsearch]
        rw [dif_neg hcond]

/-- Correctness of the post-canonicalization body of get_key_val on a
sorted file: a present key returns its stored value, an absent key
returns 0.  Shared by the point-query claims. -/
theorem lookupKey_correct (q : QueryFile) (l : Nat) (hsize : q.size = 2 ^ l)
    (hs : SortedFile q) (K : Nat) :
    (∀ v, (K, v) ∈ q.recs → lookupKey q K = v) ∧
    ((∀ v, (K, v) ∉ q.recs) → lookupKey q K = 0) := by
  have hgp : ∀ k, getPos q k = q.hash k % q.size := getPos_eq_mod q l hsize
  constructor
  · intro v hv
    obtain ⟨i, hi, hrec⟩ := List.getElem_of_mem hv
    have hgd : q.recs.getD i (0, 0) = (K, v) := by
      rw [List.getD_eq_getElem q.recs (0, 0) hi, hrec]
    have hkey : keyAt q i = K := by
      rw [keyAt, hgd]
    have hval : valAt q i = v := by
      rw [valAt, hgd]
    by_cases h0 : i = 0
    · have hfk : K = firstKey q := by
        rw [firstKey, ← hkey, h0]
      rw [lookupKey, if_pos hfk, ← h0, hval]
    · have hn1 : K ≠ firstKey q := by
        intro he
        exact h0 (sorted_key_inj q hs i 0 hi (by omega)
          (by rw [hkey]; exact he))
      by_cases hlast : i = q.recs.length - 1
      · have hlk : K = lastKey q := by
          rw [lastKey, lastId, ← hkey, hlast]
        rw [lookupKey, if_neg hn1, if_pos hlk, lastId, ← hlast, hval]
      · have hn2 : K ≠ lastKey q := by
          intro he
          refine hlast (sorted_key_inj q hs i (q.recs.length - 1) hi
            (by omega) ?_)
          rw [hkey]
          exact he
        have hi2 : i < q.recs.length - 1 := by omega
        have hpos1 : firstPos q ≤ getPos q K := by
          have hso := sorted_get q hs 0 i (by omega) hi
          rw [firstPos, firstKey, hgp, hgp]
          show q.hash (keyAt q 0) % q.size ≤ q.hash K % q.size
          rcases hso with h1 | h1
          · rw [show (q.recs.getD 0 (0, 0)).1 = keyAt q 0 from rfl,
                show (q.recs.getD i (0, 0)).1 = keyAt q i from rfl, hkey] at h1
            omega
          · rw [show (q.recs.getD 0 (0, 0)).1 = keyAt q 0 from rfl,
                show (q.recs.getD i (0, 0)).1 = keyAt q i from rfl, hkey] at h1
            omega
        have hpos2 : getPos q K ≤ lastPos q := by
          have hso := sorted_get q hs i (q.recs.length - 1) hi2 (by omega)
          rw [lastPos, lastKey, lastId, hgp, hgp]
          show q.hash K % q.size ≤ q.hash (keyAt q (q.recs.length - 1)) % q.size
          rcases hso with h1 | h1
          · rw [show (q.recs.getD (q.recs.length - 1) (0, 0)).1 =
                  keyAt q (q.recs.length - 1) from rfl,
                show (q.recs.getD i (0, 0)).1 = keyAt q i from rfl, hkey] at h1
            omega
          · rw [show (q.recs.getD (q.recs.length - 1) (0, 0)).1 =
                  keyAt q (q.recs.length - 1) from rfl,
                show (q.recs.getD i (0, 0)).1 = keyAt q i from rfl, hkey] at h1
            omega
        rw [lookupKey, if_neg hn1, if_neg hn2,
            if_neg (by
              push_neg
              exact ⟨hpos1, hpos2⟩)]
        exact bsearch_found q l hsize hs K v i hi hkey hval
          (q.recs.length) 0 (lastId q) (by rw [lastId]; omega) (by omega)
          (by rw [lastId]; omega) (by rw [lastId])
  · intro hv
    have habs : ∀ j, j < q.recs.length → keyAt q j ≠ K := by
      intro j hj he
      refine hv (valAt q j) ?_
      have : q.recs.getD j (0, 0) = (K, valAt q j) := by
        rw [keyAt] at he
        rw [valAt, ← he]
      rw [List.getD_eq_getElem q.recs (0, 0) hj] at this
      rw [← this]
      exact List.getElem_mem hj
    by_cases hnil : q.recs = []
    · rw [lookupKey]
      by_cases h1 : K = firstKey q
      · rw [if_pos h1, valAt, hnil]
        rfl
      · rw [if_neg h1]
        by_cases h2 : K = lastKey q
        · rw [if_pos h2, valAt, hnil]
          rfl
        · rw [if_neg h2]
          by_cases h3 : getPos q K < firstPos q ∨ getPos q K > lastPos q
          · rw [if_pos h3]
          · rw [if_neg h3]
            exact bsearch_absent q K (getPos q K) habs (lastId q) 0 (lastId q)
              (by omega) (by rw [lastId])
    · have hlen : 0 < q.recs.length := List.length_pos.mpr hnil
      have h1 : K ≠ firstKey q := fun he =>
        habs 0 hlen he.symm
      have h2 : K ≠ lastKey q := fun he =>
        habs (q.recs.length - 1) (by omega) he.symm
      rw [lookupKey, if_neg h1, if_neg h2]
      by_cases h3 : getPos q K < firstPos q ∨ getPos q K > lastPos q
      · rw [if_pos h3]
      · rw [if_neg h3]
        exact bsearch_absent q K (getPos q K) habs (lastId q) 0 (lastId q)
          (by omega) (by rw [lastId])

end query

/-! ## Claims about the point query -/

open query

/-- C1: on a compacted file sorted by (H(K) mod S, K) with S = 2 ^ l,
with canonical mode off, get_key_val returns the stored value of a
present key and 0 for an absent key; absence is a 0 count, never an
error. -/
theorem point_query_correct (q : QueryFile) (rc : Nat → Nat) (l K : Nat)
    (hsize : q.size = 2 ^ l) (hs : SortedFile q) :
    (∀ v, (K, v) ∈ q.recs → get_key_val q false rc K = v) ∧
    ((∀ v, (K, v) ∉ q.recs) → get_key_val q false rc K = 0) := by
  have h := lookupKey_correct q l hsize hs K
  simpa [get_key_val] using h

/-- A sorted two-record file used as the C1 witness. -/
def c1File : QueryFile := ⟨[(1, 5), (3, 7)], fun k => k, 4⟩

/-- C1 witness: the point query evaluated on c1File at the present key 3
and the absent key 2. -/
theorem point_query_correct_witness :
    get_key_val c1File false (fun k => k) 3 = 7 ∧
    get_key_val c1File false (fun k => k) 2 = 0 :=
  ⟨(point_query_correct c1File (fun k => k) 2 3 rfl (by decide)).1 7
     (by decide),
   (point_query_correct c1File (fun k => k) 2 2 rfl (by decide)).2
     (fun v hv => by simp [c1File] at hv)⟩

/-- An unsorted three-record file used as the C5 counterexample. -/
def c5File : QueryFile := ⟨[(5, 9), (1, 5), (6, 2)], fun k => k, 8⟩

/-- C5 counterexample: the point query does not reject an unsorted file:
looking up the present key 1 in c5File silently returns 0 instead of
raising any error (get_key_val has no error outcome at all). -/
theorem unsorted_no_error_cex :
    ¬ SortedFile c5File ∧ (1, 5) ∈ c5File.recs ∧
    get_key_val c5File false (fun k => k) 1 = 0 := by
  refine ⟨by decide, by decide, by decide⟩

/-- C5 (amended): the point query performs no sortedness detection and
never raises an error: on any file, sorted or not, get_key_val returns
either 0 or a value stored under the looked-up key. -/
theorem get_key_val_never_errors (q : QueryFile) (rc : Nat → Nat) (K : Nat) :
    get_key_val q false rc K = 0 ∨
    ∃ i, i < q.recs.length ∧ keyAt q i = K ∧
      get_key_val q false rc K = valAt q i := by
  have hred : get_key_val q false rc K = lookupKey q K := by
    simp [get_key_val]
  rw [hred]
  by_cases hnil : q.recs = []
  · left
    rw [lookupKey]
    by_cases h1 : K = firstKey q
    · rw [if_pos h1, valAt, hnil]
      rfl
    · rw [if_neg h1]
      by_cases h2 : K = lastKey q
      · rw [if_pos h2, valAt, hnil]
        rfl
      · rw [if_neg h2]
        by_cases h3 : getPos q K < firstPos q ∨ getPos q K > lastPos q
        · rw [if_pos h3]
        · rw [if_neg h3]
          have := bsearch_result q K (getPos q K) (lastId q) 0 (lastId q)
            (by omega) (by rw [lastId])
          rcases this with h | ⟨i, hi, -, -⟩
          · exact h
          · rw [hnil] at hi
            exact absurd hi (by simp)
  · have hlen : 0 < q.recs.length := List.length_pos.mpr hnil
    rw [lookupKey]
    by_cases h1 : K = firstKey q
    · right
      exact ⟨0, hlen, h1.symm, by rw [if_pos h1]⟩
    · rw [if_neg h1]
      by_cases h2 : K = lastKey q
      · right
        exact ⟨q.recs.length - 1, by omega, h2.symm,
          by rw [if_pos h2, lastId]⟩
      · rw [if_neg h2]
        by_cases h3 : getPos q K < firstPos q ∨ getPos q K > lastPos q
        · left
          rw [if_pos h3]
        · rw [if_neg h3]
          exact bsearch_result q K (getPos q K) (lastId q) 0 (lastId q)
            (by omega) (by rw [lastId])

/-- A sorted three-record file used as the C6 witness. -/
def c6File : QueryFile := ⟨[(1, 5), (2, 9), (3, 7)], fun k => k, 4⟩

/-- C6: in canonical mode, get_key_val first replaces the key K by
min(K, revcomp(K)) (rc stands for the external reverse_complement) and
then performs the plain lookup of that canonical key; hence on a sorted
file the result is the stored value of min(K, rc K), and 0 when that
canonical key is absent. -/
theorem canonical_query_min_revcomp (q : QueryFile) (rc : Nat → Nat)
    (l K : Nat) (hsize : q.size = 2 ^ l) (hs : SortedFile q) :
    get_key_val q true rc K = get_key_val q false rc (min K (rc K)) ∧
    (∀ v, (min K (rc K), v) ∈ q.recs → get_key_val q true rc K = v) ∧
    ((∀ v, (min K (rc K), v) ∉ q.recs) → get_key_val q true rc K = 0) := by
  have hmin : (if rc K > K then K else rc K) = min K (rc K) := by
    rcases le_or_lt (rc K) K with h | h
    · rw [if_neg (by omega), Nat.min_eq_right h]
    · rw [if_pos h, Nat.min_eq_left (by omega)]
  have heq : get_key_val q true rc K =
      get_key_val q false rc (min K (rc K)) := by
    show lookupKey q (if rc K > K then K else rc K) =
      lookupKey q (min K (rc K))
    rw [hmin]
  have h := lookupKey_correct q l hsize hs (min K (rc K))
  refine ⟨heq, ?_, ?_⟩
  · intro v hv
    rw [heq]
    show lookupKey q (min K (rc K)) = v
    exact h.1 v hv
  · intro hv
    rw [heq]
    show lookupKey q (min K (rc K)) = 0
    exact h.2 hv

/-- C6 witness: canonical lookup of key 4 on c6File with rc k = 5 - k:
the canonical key is min(4, 1) = 1, whose stored value is 5. -/
theorem canonical_query_min_revcomp_witness :
    get_key_val c6File true (fun k => 5 - k) 4 = 5 :=
  (canonical_query_min_revcomp c6File (fun k => 5 - k) 2 4 rfl
    (by decide)).2.1 5 (by decide)

end Jellyfish
